import Mathlib

/-
  Verification development for the StudyMate-CLI repository.

  Shallow embedding of `src/classes.py` (classes `vectordb` and `RAGAssistant`),
  `src/functions.py` (the interactive-shell helpers) and `src/main.py`
  (module-level startup).

  Modelling conventions:
  * The `sessions.txt` registry file is modelled as `Option String`:
    `none` means the file does not exist, `some s` means the file exists with
    raw content `s`.  Reading "line by line with strip()" is modelled
    character-faithfully (`splitLines`, `trimChars`).
  * The Python `self.collections` dict is modelled as an association list whose
    insert updates in place (so keys stay unique, exactly like a dict).
    The attribute itself is `Option Dict` because a Python attribute could in
    principle hold `None`; the code only ever stores a dict there (claim C10).
  * External services (Chroma similarity search, the Groq chat model) are
    opaque capability providers: they enter the embedding as function
    parameters, and the side effect of invoking them is reified in the
    returned value (e.g. `QueryTrace.llmContext`).
  * Fallible operations (Python exceptions: `KeyError`, `TypeError`,
    `ValueError`) are modelled with `Option`/`Except`, `none`/`.error`
    standing for the raised exception.
-/

/-! ## Character / line helpers (embedding of Python file iteration and `str.strip`) -/

/-- Split a character list at every newline, the way the Python line iteration
followed by `strip()` sees a file: `splitLines "a\n b"` gives the lines
`["a", " b"]`, and a trailing newline yields a final empty line. -/
def splitLines : List Char → List (List Char)
  | [] => [[]]
  | c :: cs =>
    if c = '\n' then [] :: splitLines cs
    else
      match splitLines cs with
      | [] => [[c]]
      | l :: ls => (c :: l) :: ls

/-- Drop trailing whitespace characters (the right half of Python `str.strip`). -/
def dropTrailingWS : List Char → List Char
  | [] => []
  | c :: cs =>
    match dropTrailingWS cs with
    | [] => if c.isWhitespace then [] else [c]
    | r => c :: r

/-- Embedding of Python `str.strip()`: drop leading and trailing whitespace. -/
def trimChars (cs : List Char) : List Char :=
  dropTrailingWS (cs.dropWhile Char.isWhitespace)

/-- The stripped, non-blank lines of a character list. -/
def parseChars (cs : List Char) : List String :=
  (((splitLines cs).map trimChars).filter (fun l => l != [])).map String.mk

/-- Embedding of `[line.strip() for line in f if line.strip()]`
(`classes.py` lines 68 and 99): the stripped, non-blank lines of a file. -/
def parseLines (s : String) : List String :=
  parseChars s.toList

/-- Embedding of the rewrite loop `for name in names: f.write(name + "\n")`
(`classes.py` lines 103-105). -/
def writeLines : List String → String
  | [] => ""
  | n :: ns => n ++ "\n" ++ writeLines ns

/-! ## Data model (embedding of the objects constructed in `classes.py`) -/

/-- Embedding of `HuggingFaceEmbeddings(model_name=...)` (`classes.py` 29-31);
`model_name` is `os.environ.get("EMBEDDING_MODEL")`, which may be absent. -/
structure HuggingFaceEmbeddings where
  model_name : Option String
deriving DecidableEq

/-- Embedding of the `RecursiveCharacterTextSplitter(...)` configuration object
(`classes.py` 46-50).  The splitting algorithm itself lives in the external
`langchain_text_splitters` package; see `splitWith` below. -/
structure RecursiveCharacterTextSplitter where
  chunk_size : Nat
  chunk_overlap : Nat
  separators : List String
deriving DecidableEq

/-- Embedding of a `Chroma(collection_name=..., embedding_function=...,
persist_directory=...)` collection handle (`classes.py` 76-80, 117-121).
Constructing a handle performs no existence check on the persisted storage. -/
structure Chroma where
  collection_name : String
  embedding_function : HuggingFaceEmbeddings
  persist_directory : String
deriving DecidableEq

/-- Embedding of a langchain `Document`: text plus provenance metadata. -/
structure Doc where
  page_content : String
  metadata : List (String × String)
deriving DecidableEq

/-- `self.collections`: Python dict from session name to Chroma handle,
as an association list with unique keys (see `dictInsert`). -/
abbrev Dict := List (String × Chroma)

/-- Python dict lookup `d[k]` / `d.get(k)` (first—and only—binding wins). -/
def dictLookup : Dict → String → Option Chroma
  | [], _ => none
  | (k, v) :: m, key => if k = key then some v else dictLookup m key

/-- Python `k in d`. -/
def dictContains (m : Dict) (key : String) : Bool :=
  (dictLookup m key).isSome

/-- Python dict assignment `d[k] = v`: update in place if the key exists,
otherwise append at the end (dict insertion order). -/
def dictInsert : Dict → String → Chroma → Dict
  | [], key, v => [(key, v)]
  | (k, w) :: m, key, v =>
    if k = key then (key, v) :: m else (k, w) :: dictInsert m key v

/-- Python `del d[k]` (keys are unique, so removing every binding of `k`
coincides with removing the one binding). -/
def dictErase : Dict → String → Dict
  | [], _ => []
  | (k, w) :: m, key =>
    if k = key then dictErase m key else (k, w) :: dictErase m key

/-- The key list of the dict, in insertion order. -/
def dictKeys (m : Dict) : List String :=
  m.map (fun p => p.1)

/-- Embedding of the `vectordb` instance state.  `sessionsFile` is the
`sessions.txt` file of the working directory (`none` = file absent). -/
structure VectorDB where
  embedding_model_name : Option String
  embedding_engine : HuggingFaceEmbeddings
  persist_directory : String
  textsplitter : RecursiveCharacterTextSplitter
  collections : Option Dict
  sessionsFile : Option String
deriving DecidableEq

/-- The splitter configuration built in `vectordb.__init__`
(`classes.py` 46-50): chunk size 500, overlap 100, separators tried in the
order paragraph (`"\n\n"`), line (`"\n"`), sentence (`"."`), word (`" "`). -/
def studymateSplitter : RecursiveCharacterTextSplitter :=
  { chunk_size := 500, chunk_overlap := 100, separators := ["\n\n", "\n", ".", " "] }

/-- Embedding of `vectordb.load_all_sessions` (`classes.py` 59-80): if
`sessions.txt` is absent, return silently; otherwise parse its stripped
non-blank lines and reattach a `Chroma` handle for every name, with no
verification that the underlying storage exists. -/
def load_all_sessions (engine : HuggingFaceEmbeddings) (pd : String)
    (m : Dict) (fs : Option String) : Dict :=
  match fs with
  | none => m
  | some s =>
    (parseLines s).foldl (fun acc n => dictInsert acc n ⟨n, engine, pd⟩) m

/-- Embedding of `vectordb.__init__` (`classes.py` 21-56): build the embedding
engine from the `EMBEDDING_MODEL` environment variable, fix the persist
directory and the splitter, start from an empty dict and load `sessions.txt`. -/
def vectordb_init (embedding_env : Option String) (fs : Option String) : VectorDB :=
  { embedding_model_name := embedding_env
    embedding_engine := ⟨embedding_env⟩
    persist_directory := "./chroma_db"
    textsplitter := studymateSplitter
    collections := some (load_all_sessions ⟨embedding_env⟩ "./chroma_db" [] fs)
    sessionsFile := fs }

/-- Embedding of `vectordb._save_session_name` (`classes.py` 83-88): open
`sessions.txt` in append mode (creating it if absent) and write `name + "\n"`. -/
def _save_session_name (fs : Option String) (name : String) : Option String :=
  some (fs.getD "" ++ name ++ "\n")

/-- Embedding of `vectordb._remove_session_name` (`classes.py` 91-105): if the
file is absent return; otherwise keep the stripped non-blank lines different
from `name` and rewrite the whole file, one name per line. -/
def _remove_session_name (fs : Option String) (name : String) : Option String :=
  match fs with
  | none => none
  | some s => some (writeLines ((parseLines s).filter (fun n => n != name)))

/-- The `Chroma(...)` handle built by `create_session` (`classes.py` 117-121). -/
def newCollection (db : VectorDB) (name : String) : Chroma :=
  ⟨name, db.embedding_engine, db.persist_directory⟩

/-- Embedding of `vectordb.create_session` (`classes.py` 108-124).
`none` models the `TypeError` Python would raise if `self.collections` held
`None` (never the case on reachable states, see `Reachable`). -/
def create_session (db : VectorDB) (name : String) : Option (Bool × VectorDB) :=
  match db.collections with
  | none => none
  | some m =>
    if dictContains m name then some (false, db)
    else
      some (true,
        { db with
            collections := some (dictInsert m name (newCollection db name))
            sessionsFile := _save_session_name db.sessionsFile name })

/-- Embedding of `vectordb.list_session` (`classes.py` 126-137) as the list of
printed lines. -/
def list_session (db : VectorDB) : List String :=
  match db.collections with
  | none => ["Session List is empty. First add some sessions."]
  | some m =>
    ["List of all Session Names", "-------------------------"]
      ++ (m.enum.map (fun p => "Session no " ++ toString (p.1 + 1) ++ ": " ++ p.2.1))
      ++ ["-------------------------"]

/-- Embedding of `vectordb.get_session` (`classes.py` 140-152), given the
current `self.collections` dict: the handle if the name exists, else `None`. -/
def get_session (m : Dict) (name : String) : Option Chroma :=
  dictLookup m name

/-- Embedding of `vectordb.delete_session` (`classes.py` 189-201).
On success the first component is the handle whose `delete_collection()` was
invoked (the irreversibly destroyed collection).  `none` models the fatal
`KeyError` when `name` is absent from the in-memory dict (and the `TypeError`
when the attribute is `None`). -/
def delete_session (db : VectorDB) (name : String) : Option (Chroma × VectorDB) :=
  match db.collections with
  | none => none
  | some m =>
    match dictLookup m name with
    | none => none
    | some c =>
      some (c,
        { db with
            collections := some (dictErase m name)
            sessionsFile := _remove_session_name db.sessionsFile name })

/-- The stripped non-blank lines of the registry file (empty when absent):
what `load_all_sessions` and `_remove_session_name` read back. -/
def registryNames (fs : Option String) : List String :=
  match fs with
  | none => []
  | some s => parseLines s

/-! ## Text splitter model

The splitting algorithm is provided by the external `langchain_text_splitters`
package, whose code is not part of this repository; only its configuration
(`studymateSplitter`) comes from `classes.py`.  The functions below are
therefore *modelled from the spec* (section 4.2), not translated from library
source. -/

/-- Modelled from the spec: last-resort mid-unit splitting.  When no configured
separator can break an oversized piece, cut fixed windows of `size` characters
advancing by `step` characters (`step = size - overlap`, giving the
100-character overlap between consecutive windows). -/
def hardChunks (size step : Nat) (cs : List Char) : List (List Char) :=
  if cs.length ≤ size ∨ step = 0 then [cs]
  else cs.take size :: hardChunks size step (cs.drop step)
termination_by cs.length
decreasing_by
  rename_i h
  push_neg at h
  have h2 : 0 < step := Nat.pos_of_ne_zero h.2
  simpa using Nat.sub_lt (Nat.lt_of_le_of_lt (Nat.zero_le size) h.1) h2

/-- Modelled from the spec: greedily merge consecutive small pieces (rejoined
with the separator they were split at) while the merged text stays within the
`size` target. -/
def greedyMergeGo (size : Nat) (sep : String) (acc : String) :
    List String → List String
  | [] => [acc]
  | u :: us =>
    if (acc ++ sep ++ u).length ≤ size then greedyMergeGo size sep (acc ++ sep ++ u) us
    else acc :: greedyMergeGo size sep u us

/-- Modelled from the spec: merge a list of pieces into chunks of at most
`size` characters (assuming every piece is itself at most `size`). -/
def greedyMerge (size : Nat) (sep : String) : List String → List String
  | [] => []
  | u :: us => greedyMergeGo size sep u us

/-- Modelled from the spec: the recursive splitter.  A text within the size
target is kept whole as a single chunk; otherwise the text is split at the
highest-priority separator, oversized units are split further with the
remaining separators (paragraph, then line, then sentence, then word), and
small neighbouring units are merged back greedily; when the separators are
exhausted, `hardChunks` cuts mid-unit with the configured overlap. -/
def splitWith (size step : Nat) : List String → String → List String
  | [], text => (hardChunks size step text.toList).map String.mk
  | sep :: rest, text =>
    if text.length ≤ size then [text]
    else
      greedyMerge size sep
        (((text.splitOn sep).map
          (fun u => if u.length ≤ size then [u] else splitWith size step rest u)).flatten)

/-- Modelled from the spec: `self.textsplitter.split_text` for a configured
splitter (target `chunk_size`, advance step `chunk_size - chunk_overlap`). -/
def chunk_text (sp : RecursiveCharacterTextSplitter) (text : String) : List String :=
  splitWith sp.chunk_size (sp.chunk_size - sp.chunk_overlap) sp.separators text

/-- Embedding of `vectordb.chunk_document` (`classes.py` 155-159) composed with
the library function `split_documents`: split the text of every document,
each chunk inheriting the metadata of its document. -/
def chunk_document (sp : RecursiveCharacterTextSplitter) (docs : List Doc) : List Doc :=
  (docs.map (fun d =>
    (chunk_text sp d.page_content).map (fun t => Doc.mk t d.metadata))).flatten

/-! ## RAG assistant (embedding of `RAGAssistant` in `classes.py`) -/

/-- Embedding of the `ChatGroq(...)` configuration (`classes.py` 267-272). -/
structure ChatGroq where
  model : String
  temperature : Nat
  reasoning_format : String
  max_retries : Nat
deriving DecidableEq

/-- Embedding of `RAGAssistant._initialize_llm` (`classes.py` 258-272):
read `GROQ_API_KEY` from the environment; `if not api_key` raises a
`ValueError` — Python truthiness makes both an absent key (`None`) and an
empty-string key falsy.  Otherwise build the fixed Groq configuration. -/
def _initialize_llm (groq_env : Option String) : Except String ChatGroq :=
  match groq_env with
  | none => .error "Groq API key not found in environment variables!"
  | some k =>
    if k = "" then .error "Groq API key not found in environment variables!"
    else .ok ⟨"qwen/qwen3-32b", 0, "hidden", 2⟩

/-- Embedding of the `RAGAssistant` state: the LLM configuration and the
reference to the vector database.  The prompt template and chain are fixed
data wired to the external LLM service; the chain behaviour enters `query`
as a function parameter. -/
structure RAGAssistant where
  llm : ChatGroq
  vector_db : VectorDB
deriving DecidableEq

/-- Embedding of `RAGAssistant.__init__` (`classes.py` 205-255): the LLM is
initialized immediately, so a missing credential propagates as the error. -/
def RAGAssistant_init (groq_env : Option String) (db : VectorDB) :
    Except String RAGAssistant :=
  match _initialize_llm groq_env with
  | .error e => .error e
  | .ok llm => .ok ⟨llm, db⟩

/-- Embedding of the module-level startup in `main.py` lines 4-5:
`db = vectordb()` then `assistant = RAGAssistant(db)`.  An `.error` result is
an uncaught exception at import time: the process aborts. -/
def startup (embedding_env groq_env : Option String) (fs : Option String) :
    Except String (VectorDB × RAGAssistant) :=
  let db := vectordb_init embedding_env fs
  match RAGAssistant_init groq_env db with
  | .error e => .error e
  | .ok a => .ok (db, a)

/-- The fixed fallback answer of `RAGAssistant.query`
(`classes.py` 289 and 297). -/
def fallbackAnswer : String :=
  "I don\x27t know. No relevant information found."

/-- Result of one `query` call.  `llmContext` reifies the side effect of
invoking the LLM chain: `none` means the chain was never invoked, `some ctx`
means it was invoked once with context string `ctx`. -/
structure QueryTrace where
  result : String
  llmContext : Option String
deriving DecidableEq

/-- Embedding of `RAGAssistant.query` (`classes.py` 275-312), for the current
`self.collections` dict `m`.  The external similarity search and the chain
(prompt plus LLM, whose `.content` the chain call yields) are parameters:
`search c q k` is `c.similarity_search(q, k=k)` and `llm question context
session_name` is `self.chain.invoke({...}).content`. -/
def query (search : Chroma → String → Nat → List Doc)
    (llm : String → String → String → String)
    (m : Dict) (session_name question : String) (n_results : Nat) : QueryTrace :=
  match get_session m session_name with
  | none => ⟨fallbackAnswer, none⟩
  | some collection =>
    let docs := search collection question n_results
    if docs.isEmpty then ⟨fallbackAnswer, none⟩
    else
      let context := String.intercalate "\n\n" (docs.map Doc.page_content)
      ⟨llm question context session_name, some context⟩

/-! ## Interactive shell (embedding of `functions.py`) -/

/-- Embedding of `str.lower` restricted to how the code uses it
(ASCII session text). -/
def lowerStr (s : String) : String :=
  String.mk (s.toList.map Char.toLower)

/-- Embedding of the chat loop of `start_chat` (`functions.py` 71-78) on a
stream of user inputs: the list of inputs actually submitted as questions
before the loop stops.  The loop stops exactly when `str.lower(question) ==
"quit"`; every other input is submitted. -/
def start_chat_loop : List String → List String
  | [] => []
  | q :: qs => if lowerStr q = "quit" then [] else q :: start_chat_loop qs

/-! ## Reachable states and registry predicates -/

/-- States of the `vectordb` instance reachable in a run of the program:
the freshly constructed instance, and the results of the mutating registry
operations (`create_session`, `delete_session`) that complete without an
exception.  (`get_session`, `list_session` and `add_file` never reassign
`self.collections`.) -/
inductive Reachable : VectorDB → Prop
  | init (embedding_env : Option String) (fs : Option String) :
      Reachable (vectordb_init embedding_env fs)
  | create (db : VectorDB) (name : String) (b : Bool) (db' : VectorDB) :
      Reachable db → create_session db name = some (b, db') → Reachable db'
  | delete (db : VectorDB) (name : String) (c : Chroma) (db' : VectorDB) :
      Reachable db → delete_session db name = some (c, db') → Reachable db'

/-- Two name lists denote the same set. -/
def sameNames (xs ys : List String) : Prop :=
  ∀ a, a ∈ xs ↔ a ∈ ys

/-- A registry file in the shape the code itself maintains: absent, empty, or
newline-terminated. -/
def fileWF (fs : Option String) : Prop :=
  match fs with
  | none => True
  | some s => s = "" ∨ ∃ t, s = t ++ "\n"

/-- A session name that survives the write/strip round trip of the registry
file: non-blank, equal to its own strip, and free of newlines. -/
def goodStr (n : String) : Prop :=
  trimChars n.toList = n.toList ∧ n ≠ "" ∧ '\n' ∉ n.toList

/-! ## Helper lemmas: dict operations -/

theorem dictLookup_insert (m : Dict) (k a : String) (v : Chroma) :
    dictLookup (dictInsert m k v) a = if a = k then some v else dictLookup m a := by
  induction m with
  | nil =>
    by_cases hak : a = k
    · subst hak; simp [dictInsert, dictLookup]
    · simp [dictInsert, dictLookup, hak, Ne.symm hak]
  | cons p m ih =>
    obtain ⟨pk, pv⟩ := p
    by_cases hpk : pk = k
    · subst hpk
      by_cases hak : a = pk
      · subst hak; simp [dictInsert, dictLookup]
      · simp [dictInsert, dictLookup, hak, Ne.symm hak]
    · by_cases hpa : pk = a
      · subst hpa
        simp [dictInsert, dictLookup, hpk]
      · simp [dictInsert, dictLookup, hpk, hpa, ih]

theorem dictLookup_erase (m : Dict) (k a : String) :
    dictLookup (dictErase m k) a = if a = k then none else dictLookup m a := by
  induction m with
  | nil => simp [dictErase, dictLookup]
  | cons p m ih =>
    obtain ⟨pk, pv⟩ := p
    by_cases hpk : pk = k
    · subst hpk
      by_cases hak : a = pk
      · subst hak; simp [dictErase, dictLookup, ih]
      · simp [dictErase, dictLookup, hak, Ne.symm hak, ih]
    · by_cases hpa : pk = a
      · subst hpa
        simp [dictErase, dictLookup, hpk, Ne.symm hpk, ih]
      · simp [dictErase, dictLookup, hpk, hpa, ih]

theorem mem_dictKeys (m : Dict) (a : String) :
    a ∈ dictKeys m ↔ (dictLookup m a).isSome := by
  induction m with
  | nil => simp [dictKeys, dictLookup]
  | cons p m ih =>
    obtain ⟨pk, pv⟩ := p
    have hk : dictKeys ((pk, pv) :: m) = pk :: dictKeys m := rfl
    rw [hk]
    by_cases hpa : pk = a
    · subst hpa; simp [dictLookup]
    · simp [List.mem_cons, dictLookup, hpa, Ne.symm hpa, ih]

theorem dictLookup_foldl_insert (f : String → Chroma) (names : List String) :
    ∀ (m : Dict) (k : String),
      dictLookup (names.foldl (fun acc n => dictInsert acc n (f n)) m) k =
        if k ∈ names then some (f k) else dictLookup m k := by
  induction names with
  | nil => intro m k; simp
  | cons n ns ih =>
    intro m k
    simp only [List.foldl_cons, ih, dictLookup_insert, List.mem_cons]
    by_cases hk : k ∈ ns
    · simp [hk]
    · by_cases hkn : k = n <;> simp [hk, hkn]

/-! ## Helper lemmas: strings, lines, strip -/

theorem toList_append (a b : String) : (a ++ b).toList = a.toList ++ b.toList := by
  cases a; cases b; rfl

theorem mk_toList (s : String) : String.mk s.toList = s := by
  cases s; rfl

theorem toList_mk (l : List Char) : (String.mk l).toList = l := rfl

theorem toList_eq_nil_iff (s : String) : s.toList = [] ↔ s = "" := by
  cases s with
  | mk data =>
    constructor
    · intro h
      have hd : data = [] := h
      rw [hd]
    · intro h
      have hd : data = [] := congrArg String.data h
      simp [String.toList, hd]

theorem splitLines_ne_nil (cs : List Char) : splitLines cs ≠ [] := by
  induction cs with
  | nil => simp [splitLines]
  | cons c cs ih =>
    simp only [splitLines]
    split
    · simp
    · split
      · simp
      · simp

theorem splitLines_append (xs ys : List Char) :
    splitLines (xs ++ '\n' :: ys) = splitLines xs ++ splitLines ys := by
  induction xs with
  | nil => simp [splitLines]
  | cons c cs ih =>
    by_cases hc : c = '\n'
    · subst hc
      show splitLines ('\n' :: (cs ++ '\n' :: ys)) = _
      simp [splitLines, ih]
    · show splitLines (c :: (cs ++ '\n' :: ys)) = _
      simp only [splitLines, hc, if_false, ite_false]
      rw [ih]
      cases h : splitLines cs with
      | nil => exact absurd h (splitLines_ne_nil cs)
      | cons l ls => simp

theorem splitLines_of_no_newline (cs : List Char) (h : '\n' ∉ cs) :
    splitLines cs = [cs] := by
  induction cs with
  | nil => rfl
  | cons c cs ih =>
    simp only [List.mem_cons, not_or] at h
    have hc : ¬ c = '\n' := fun hh => h.1 hh.symm
    simp only [splitLines, hc, ite_false, ih h.2]

theorem no_newline_of_mem_splitLines (cs : List Char) (l : List Char)
    (hl : l ∈ splitLines cs) : '\n' ∉ l := by
  induction cs generalizing l with
  | nil => simp [splitLines] at hl; simp [hl]
  | cons c cs ih =>
    simp only [splitLines] at hl
    split at hl
    · rcases List.mem_cons.mp hl with h | h
      · simp [h]
      · exact ih l h
    · rename_i hc
      cases h : splitLines cs with
      | nil => exact absurd h (splitLines_ne_nil cs)
      | cons l0 ls =>
        rw [h] at hl
        rcases List.mem_cons.mp hl with h1 | h1
        · subst h1
          intro hmem
          rcases List.mem_cons.mp hmem with h2 | h2
          · exact hc h2.symm
          · exact ih l0 (by simp [h]) h2
        · exact ih l (by simp [h, h1])

theorem mem_of_mem_dropTrailingWS (l : List Char) (a : Char)
    (h : a ∈ dropTrailingWS l) : a ∈ l := by
  induction l with
  | nil => simp [dropTrailingWS] at h
  | cons c cs ih =>
    simp only [dropTrailingWS] at h
    cases hd : dropTrailingWS cs with
    | nil =>
      rw [hd] at h
      by_cases hw : c.isWhitespace
      · rw [if_pos hw] at h; simp at h
      · rw [if_neg hw] at h
        simp only [List.mem_singleton] at h
        simp [h]
    | cons x t =>
      rw [hd] at h
      rcases List.mem_cons.mp h with h1 | h1
      · simp [h1]
      · exact List.mem_cons_of_mem c (ih (hd ▸ h1))

theorem mem_of_mem_trimChars (l : List Char) (a : Char)
    (h : a ∈ trimChars l) : a ∈ l := by
  have h1 := mem_of_mem_dropTrailingWS _ _ h
  exact List.dropWhile_subset _ h1

theorem dropTrailingWS_cons_eq (c : Char) (cs : List Char) :
    dropTrailingWS (c :: cs) =
      match dropTrailingWS cs with
      | [] => if c.isWhitespace then [] else [c]
      | r => c :: r := rfl

theorem dropTrailingWS_idem (l : List Char) :
    dropTrailingWS (dropTrailingWS l) = dropTrailingWS l := by
  induction l with
  | nil => rfl
  | cons c cs ih =>
    cases hd : dropTrailingWS cs with
    | nil =>
      rw [dropTrailingWS_cons_eq, hd]
      by_cases hw : c.isWhitespace
      · simp [hw, dropTrailingWS]
      · simp [hw, dropTrailingWS]
    | cons x t =>
      have hx : dropTrailingWS (x :: t) = x :: t := by rw [← hd, ih]
      have houter : dropTrailingWS (c :: cs) = c :: x :: t := by
        rw [dropTrailingWS_cons_eq, hd]
      rw [houter, dropTrailingWS_cons_eq, hx]

theorem dropTrailingWS_head (l : List Char) :
    dropTrailingWS l = [] ∨ (dropTrailingWS l).head? = l.head? := by
  cases l with
  | nil => left; rfl
  | cons c cs =>
    rw [dropTrailingWS_cons_eq]
    cases hd : dropTrailingWS cs with
    | nil =>
      by_cases hw : c.isWhitespace
      · left; simp [hw]
      · right; simp [hw]
    | cons x t => right; rfl

theorem dropWhile_ws_head (l : List Char) (x : Char)
    (h : (l.dropWhile Char.isWhitespace).head? = some x) : x.isWhitespace = false := by
  induction l with
  | nil => simp [List.dropWhile] at h
  | cons c cs ih =>
    rw [List.dropWhile_cons] at h
    split at h
    · exact ih h
    · rename_i hc
      simp only [List.head?_cons, Option.some.injEq] at h
      subst h
      exact Bool.not_eq_true _ ▸ (by simpa using hc)

theorem dropWhile_trimChars (l : List Char) :
    (trimChars l).dropWhile Char.isWhitespace = trimChars l := by
  cases ht : trimChars l with
  | nil => rfl
  | cons x t =>
    have hx : x.isWhitespace = false := by
      rcases dropTrailingWS_head (l.dropWhile Char.isWhitespace) with h | h
      · rw [trimChars, h] at ht; simp at ht
      · apply dropWhile_ws_head l
        rw [← h, ← trimChars, ht]
        rfl
    rw [List.dropWhile_cons, hx]
    simp

theorem trimChars_idem (l : List Char) : trimChars (trimChars l) = trimChars l := by
  rw [trimChars, dropWhile_trimChars, trimChars, dropTrailingWS_idem]

/-! ## Helper lemmas: registry-file parsing -/

theorem parseChars_nil : parseChars [] = [] := rfl

theorem parseLines_empty : parseLines "" = [] := rfl

theorem parseChars_append (xs ys : List Char) :
    parseChars (xs ++ '\n' :: ys) = parseChars xs ++ parseChars ys := by
  unfold parseChars
  rw [splitLines_append]
  simp [List.map_append, List.filter_append]

/-- Parsing the single line written for a good name yields exactly that name. -/
theorem parseChars_good (name : String) (hgood : goodStr name) :
    parseChars name.toList = [name] := by
  obtain ⟨htrim, hne, hnl⟩ := hgood
  have hkeep : (trimChars name.toList != []) = true := by
    rw [htrim]
    simp only [bne_iff_ne, ne_eq]
    intro hz
    exact hne ((toList_eq_nil_iff name).mp hz)
  unfold parseChars
  rw [splitLines_of_no_newline _ hnl]
  simp only [List.map_cons, List.map_nil, List.filter_cons, hkeep, if_pos]
  rw [htrim]
  simp [mk_toList]

theorem newline_toList : ("\n" : String).toList = ['\n'] := rfl

theorem parseLines_append_line (s name : String)
    (hgood : goodStr name) (hwf : s = "" ∨ ∃ t, s = t ++ "\n") :
    parseLines (s ++ name ++ "\n") = parseLines s ++ [name] := by
  have hone : parseChars (name.toList ++ '\n' :: ([] : List Char)) = [name] := by
    rw [parseChars_append, parseChars_good name hgood, parseChars_nil]
    simp
  rcases hwf with hs | ⟨t, hs⟩
  · subst hs
    have hto : ("" ++ name ++ "\n").toList = name.toList ++ '\n' :: ([] : List Char) := by
      rw [toList_append, toList_append]
      rfl
    rw [parseLines, hto, hone, parseLines_empty]
    simp
  · subst hs
    have h1 : ((t ++ "\n") ++ name ++ "\n").toList =
        t.toList ++ '\n' :: (name.toList ++ '\n' :: ([] : List Char)) := by
      simp only [toList_append, newline_toList]
      simp
    have h2 : (t ++ "\n").toList = t.toList ++ '\n' :: ([] : List Char) := by
      rw [toList_append, newline_toList]
    rw [parseLines, h1, parseChars_append, hone,
        parseLines, h2, parseChars_append, parseChars_nil]
    simp

theorem goodStr_of_mem_parseLines (s : String) (n : String)
    (hn : n ∈ parseLines s) : goodStr n := by
  simp only [parseLines, parseChars, List.mem_map, List.mem_filter] at hn
  obtain ⟨l, ⟨hl, hne⟩, hmk⟩ := hn
  obtain ⟨l0, hl0, hl0t⟩ := hl
  subst hmk
  subst hl0t
  refine ⟨?_, ?_, ?_⟩
  · rw [toList_mk, trimChars_idem]
  · intro h
    have hz : trimChars l0 = [] := congrArg String.data h
    rw [hz] at hne
    simp at hne
  · rw [toList_mk]
    intro hmem
    exact no_newline_of_mem_splitLines _ _ hl0 (mem_of_mem_trimChars _ _ hmem)

theorem parseLines_writeLines (names : List String)
    (h : ∀ n ∈ names, goodStr n) :
    parseLines (writeLines names) = names := by
  induction names with
  | nil => rfl
  | cons n ns ih =>
    have h1 : (writeLines (n :: ns)).toList =
        n.toList ++ '\n' :: (writeLines ns).toList := by
      show ((n ++ "\n") ++ writeLines ns).toList = _
      simp only [toList_append, newline_toList]
      simp
    rw [parseLines, h1, parseChars_append,
        parseChars_good n (h n (List.mem_cons_self n ns))]
    have ih2 := ih (fun m hm => h m (List.mem_cons_of_mem n hm))
    rw [parseLines] at ih2
    rw [ih2]
    rfl

/-! ## Helper lemmas: text splitter bounds -/

theorem hardChunks_le (size step : Nat) (hstep : step ≠ 0) :
    ∀ (n : Nat) (cs : List Char), cs.length ≤ n →
      ∀ c ∈ hardChunks size step cs, c.length ≤ size := by
  intro n
  induction n with
  | zero =>
    intro cs hlen c hc
    have hnil : cs = [] := List.length_eq_zero.mp (Nat.le_zero.mp hlen)
    subst hnil
    rw [hardChunks] at hc
    simp at hc
    subst hc
    simp
  | succ n ih =>
    intro cs hlen c hc
    rw [hardChunks] at hc
    split at hc
    · rename_i h
      simp only [List.mem_singleton] at hc
      subst hc
      rcases h with h | h
      · exact h
      · exact absurd h hstep
    · rename_i h
      push_neg at h
      rcases List.mem_cons.mp hc with h1 | h1
      · subst h1
        simp [List.length_take]
      · refine ih (cs.drop step) ?_ c h1
        have hs1 : 1 ≤ step := Nat.one_le_iff_ne_zero.mpr hstep
        simp only [List.length_drop]
        omega

theorem greedyMergeGo_le (size : Nat) (sep : String) :
    ∀ (us : List String) (acc : String), acc.length ≤ size →
      (∀ u ∈ us, u.length ≤ size) →
      ∀ c ∈ greedyMergeGo size sep acc us, c.length ≤ size := by
  intro us
  induction us with
  | nil =>
    intro acc hacc hus c hc
    simp only [greedyMergeGo, List.mem_singleton] at hc
    subst hc
    exact hacc
  | cons u us ih =>
    intro acc hacc hus c hc
    rw [greedyMergeGo] at hc
    split at hc
    · rename_i h
      exact ih _ h (fun v hv => hus v (List.mem_cons_of_mem u hv)) c hc
    · rcases List.mem_cons.mp hc with h1 | h1
      · subst h1
        exact hacc
      · exact ih u (hus u (List.mem_cons_self u us))
          (fun v hv => hus v (List.mem_cons_of_mem u hv)) c h1

theorem greedyMerge_le (size : Nat) (sep : String) (us : List String)
    (hus : ∀ u ∈ us, u.length ≤ size) :
    ∀ c ∈ greedyMerge size sep us, c.length ≤ size := by
  cases us with
  | nil => intro c hc; simp [greedyMerge] at hc
  | cons u us =>
    intro c hc
    exact greedyMergeGo_le size sep us u (hus u (List.mem_cons_self u us))
      (fun v hv => hus v (List.mem_cons_of_mem u hv)) c hc

theorem splitWith_le (size step : Nat) (hstep : step ≠ 0) :
    ∀ (seps : List String) (text : String),
      ∀ c ∈ splitWith size step seps text, c.length ≤ size := by
  intro seps
  induction seps with
  | nil =>
    intro text c hc
    simp only [splitWith] at hc
    obtain ⟨l, hl, hmk⟩ := List.mem_map.mp hc
    subst hmk
    show (String.mk l).length ≤ size
    have hlen : (String.mk l).length = l.length := rfl
    rw [hlen]
    exact hardChunks_le size step hstep text.toList.length text.toList
      (Nat.le_refl _) l hl
  | cons sep rest ih =>
    intro text c hc
    rw [splitWith] at hc
    split at hc
    · rename_i h
      simp only [List.mem_singleton] at hc
      subst hc
      exact h
    · refine greedyMerge_le size sep _ ?_ c hc
      intro u hu
      obtain ⟨piece, hpiece, hupiece⟩ := List.mem_flatten.mp hu
      obtain ⟨v, hv, hvp⟩ := List.mem_map.mp hpiece
      subst hvp
      by_cases hvle : v.length ≤ size
      · rw [if_pos hvle] at hupiece
        simp only [List.mem_singleton] at hupiece
        subst hupiece
        exact hvle
      · rw [if_neg hvle] at hupiece
        exact ih v u hupiece

theorem splitWith_single (size step : Nat) (sep : String) (rest : List String)
    (text : String) (h : text.length ≤ size) :
    splitWith size step (sep :: rest) text = [text] := by
  rw [splitWith, if_pos h]

/-! ## Claims -/

/-- Claim C1 (amended): for every session name and question, `query` returns
the fixed fallback string *and does not invoke the LLM* exactly when the
session name is absent from the in-memory registry or the similarity search
returns zero chunks.  (The returned string alone can also equal the fallback
when the session exists and chunks are found, because the prompt instructs
the LLM to answer with exactly that string when the context is unhelpful;
see the counterexample.) -/
theorem claim_C1 : ∀ (search : Chroma → String → Nat → List Doc)
    (llm : String → String → String → String) (m : Dict) (s q : String) (k : Nat),
    query search llm m s q k = ⟨fallbackAnswer, none⟩ ↔
      (get_session m s = none ∨ ∃ c, get_session m s = some c ∧ search c q k = []) := by
  intro search llm m s q k
  cases hc : get_session m s with
  | none => simp [query, hc]
  | some c =>
    simp only [query, hc]
    by_cases hd : (search c q k).isEmpty
    · have hnil : search c q k = [] := List.isEmpty_iff.mp hd
      simp [hd, hnil]
    · have hne : search c q k ≠ [] := fun h => hd (by simp [h])
      simp [hd, hne, QueryTrace.mk.injEq]

/-- The similarity search used in the counterexample to claim C1 as stated:
it returns one chunk. -/
def cexSearch : Chroma → String → Nat → List Doc :=
  fun _ _ _ => [⟨"The cell is the basic unit of life.", []⟩]

/-- The LLM behaviour used in the counterexample to claim C1 as stated: the
model answers with exactly the fallback string, which is precisely what the
system prompt (`classes.py` 227-229) instructs it to do when the context does
not contain the answer. -/
def cexLLM : String → String → String → String :=
  fun _ _ _ => fallbackAnswer

/-- Claim C1, counterexample to the claim as stated: on an existing session
with a non-empty search result, `query` can still return the fixed fallback
string (the LLM produced it), so "returns the fallback exactly when the
session is absent or zero chunks are returned" is false. -/
theorem claim_C1_counterexample :
    (query cexSearch cexLLM [("bio", ⟨"bio", ⟨none⟩, "./chroma_db"⟩)] "bio" "q" 5).result
        = fallbackAnswer
    ∧ get_session [("bio", ⟨"bio", ⟨none⟩, "./chroma_db"⟩)] "bio"
        = some ⟨"bio", ⟨none⟩, "./chroma_db"⟩
    ∧ cexSearch ⟨"bio", ⟨none⟩, "./chroma_db"⟩ "q" 5 ≠ []
    ∧ (query cexSearch cexLLM [("bio", ⟨"bio", ⟨none⟩, "./chroma_db"⟩)] "bio" "q" 5).llmContext
        ≠ none := by
  refine ⟨rfl, rfl, ?_, ?_⟩
  · decide
  · decide

/-- Claim C2: `create_session` returns `False` and changes nothing when the
name is already a key of the in-memory dict; otherwise it registers a new
collection handle under the name, appends the single line `name + "\n"` to
the registry file (creating it if needed), returns `True`, and the session is
retrievable via `get_session`. -/
theorem claim_C2 : ∀ (db : VectorDB) (m : Dict) (name : String),
    db.collections = some m →
    (name ∈ dictKeys m → create_session db name = some (false, db)) ∧
    (name ∉ dictKeys m →
      create_session db name = some (true,
        { db with
            collections := some (dictInsert m name (newCollection db name))
            sessionsFile := some (db.sessionsFile.getD "" ++ name ++ "\n") }) ∧
      get_session (dictInsert m name (newCollection db name)) name
        = some (newCollection db name)) := by
  intro db m name hcol
  constructor
  · intro hmem
    have hcontains : dictContains m name = true := (mem_dictKeys m name).mp hmem
    simp [create_session, hcol, hcontains]
  · intro hmem
    have hcontains : dictContains m name = false := by
      rw [dictContains, Bool.eq_false_iff]
      intro h
      exact hmem ((mem_dictKeys m name).mpr h)
    refine ⟨?_, ?_⟩
    · simp [create_session, hcol, hcontains, _save_session_name]
    · rw [get_session, dictLookup_insert]
      simp

/-- Claim C2, witness: creating a fresh session in a freshly initialized
database succeeds, appends one line, and makes the session retrievable. -/
theorem claim_C2_witness :
    create_session (vectordb_init none none) "bio" = some (true,
      { vectordb_init none none with
          collections := some (dictInsert [] "bio"
            (newCollection (vectordb_init none none) "bio"))
          sessionsFile := some (((vectordb_init none none).sessionsFile).getD ""
            ++ "bio" ++ "\n") }) ∧
    get_session (dictInsert [] "bio" (newCollection (vectordb_init none none) "bio")) "bio"
      = some (newCollection (vectordb_init none none) "bio") :=
  (claim_C2 (vectordb_init none none) [] "bio" rfl).2 (by decide)

/-- Claim C3: for a name present in the in-memory dict, `delete_session`
invokes `delete_collection()` on exactly the registered handle, rewrites the
registry file keeping only the stripped non-blank lines different from the
name, and removes the in-memory entry, so a subsequent `get_session` reports
not-found; for an absent name it is a fatal key-not-found error (`none`). -/
theorem claim_C3 : ∀ (db : VectorDB) (m : Dict) (name : String),
    db.collections = some m →
    (∀ c, dictLookup m name = some c →
      delete_session db name = some (c,
        { db with
            collections := some (dictErase m name)
            sessionsFile := _remove_session_name db.sessionsFile name }) ∧
      get_session (dictErase m name) name = none ∧
      registryNames (_remove_session_name db.sessionsFile name)
        = (registryNames db.sessionsFile).filter (fun n => n != name)) ∧
    (dictLookup m name = none → delete_session db name = none) := by
  intro db m name hcol
  constructor
  · intro c hlook
    refine ⟨?_, ?_, ?_⟩
    · simp [delete_session, hcol, hlook]
    · rw [get_session, dictLookup_erase]
      simp
    · cases hf : db.sessionsFile with
      | none => rfl
      | some s =>
        simp only [_remove_session_name, registryNames]
        exact parseLines_writeLines _
          (fun n hn => goodStr_of_mem_parseLines s n (List.mem_of_mem_filter hn))
  · intro hlook
    simp [delete_session, hcol, hlook]

/-- Claim C3, witness: deleting the only session of a database loaded from a
one-line registry file removes it everywhere. -/
theorem claim_C3_witness :
    delete_session (vectordb_init none (some "bio\n")) "bio" = some
      (⟨"bio", ⟨none⟩, "./chroma_db"⟩,
        { vectordb_init none (some "bio\n") with
            collections := some (dictErase [("bio", ⟨"bio", ⟨none⟩, "./chroma_db"⟩)] "bio")
            sessionsFile := _remove_session_name (some "bio\n") "bio" }) ∧
    get_session (dictErase [("bio", ⟨"bio", ⟨none⟩, "./chroma_db"⟩)] "bio") "bio" = none ∧
    registryNames (_remove_session_name (some "bio\n") "bio")
      = (registryNames (some "bio\n")).filter (fun n => n != "bio") :=
  (claim_C3 (vectordb_init none (some "bio\n"))
    [("bio", ⟨"bio", ⟨none⟩, "./chroma_db"⟩)] "bio" rfl).1
    ⟨"bio", ⟨none⟩, "./chroma_db"⟩ rfl

/-- Claim C4: on an existing session whose similarity search returns a
non-empty chunk list, the context handed to the LLM chain is the chunk
`page_content` texts joined in retrieval order by a blank line, chunk
metadata plays no role (any search returning the same texts yields the same
call), and the returned value is the text response of the chain verbatim. -/
theorem claim_C4 : ∀ (search : Chroma → String → Nat → List Doc)
    (llm : String → String → String → String)
    (m : Dict) (s q : String) (k : Nat) (c : Chroma),
    get_session m s = some c → search c q k ≠ [] →
    (query search llm m s q k =
      ⟨llm q (String.intercalate "\n\n" ((search c q k).map Doc.page_content)) s,
        some (String.intercalate "\n\n" ((search c q k).map Doc.page_content))⟩ ∧
      ∀ search2 : Chroma → String → Nat → List Doc,
        (search2 c q k).map Doc.page_content = (search c q k).map Doc.page_content →
        query search2 llm m s q k = query search llm m s q k) := by
  intro search llm m s q k c hc hne
  have hd : (search c q k).isEmpty = false := by
    simpa [List.isEmpty_iff] using hne
  constructor
  · simp [query, hc, hd]
  · intro search2 hmap
    have hne2 : search2 c q k ≠ [] := by
      intro h0
      rw [h0] at hmap
      exact hne (List.map_eq_nil_iff.mp hmap.symm)
    have hd2 : (search2 c q k).isEmpty = false := by
      simpa [List.isEmpty_iff] using hne2
    simp [query, hc, hd, hd2, hmap]

/-- Claim C4, witness: a one-chunk search on an existing session passes the
text of that chunk as the context and returns the LLM response verbatim. -/
theorem claim_C4_witness :
    query (fun _ _ _ => [Doc.mk "alpha" [("page", "1")]])
        (fun _ ctx _ => "ANSWER " ++ ctx)
        [("s", Chroma.mk "s" ⟨none⟩ "./chroma_db")] "s" "q" 5
      = ⟨"ANSWER alpha", some "alpha"⟩ := by
  have h := (claim_C4 (fun _ _ _ => [Doc.mk "alpha" [("page", "1")]])
    (fun _ ctx _ => "ANSWER " ++ ctx)
    [("s", Chroma.mk "s" ⟨none⟩ "./chroma_db")] "s" "q" 5
    (Chroma.mk "s" ⟨none⟩ "./chroma_db") rfl (by decide)).1
  rw [h]
  rfl

/-- Claim C5: startup session loading parses the registry file into its
stripped non-blank lines and puts a reattached collection handle in the
in-memory dict for exactly those names (built unconditionally — no check that
the underlying storage exists); a missing registry file leaves the dict
empty. -/
theorem claim_C5 : ∀ (emb fs : Option String),
    (vectordb_init emb fs).collections
      = some (load_all_sessions ⟨emb⟩ "./chroma_db" [] fs) ∧
    (fs = none → (vectordb_init emb fs).collections = some []) ∧
    (∀ s, fs = some s →
      ∀ k, dictLookup (load_all_sessions ⟨emb⟩ "./chroma_db" [] fs) k =
        if k ∈ parseLines s then some ⟨k, ⟨emb⟩, "./chroma_db"⟩ else none) := by
  intro emb fs
  refine ⟨rfl, ?_, ?_⟩
  · intro h
    subst h
    rfl
  · intro s hs k
    subst hs
    show dictLookup ((parseLines s).foldl
      (fun acc n => dictInsert acc n ⟨n, ⟨emb⟩, "./chroma_db"⟩) []) k = _
    rw [dictLookup_foldl_insert (fun n => ⟨n, ⟨emb⟩, "./chroma_db"⟩) (parseLines s) [] k]
    rfl

/-- Claim C5, witness: loading a registry file with a blank line and one name
yields a handle for that name. -/
theorem claim_C5_witness :
    dictLookup (load_all_sessions ⟨none⟩ "./chroma_db" [] (some " \nalpha\n")) "alpha"
      = some ⟨"alpha", ⟨none⟩, "./chroma_db"⟩ := by
  have h := (claim_C5 none (some " \nalpha\n")).2.2 " \nalpha\n" rfl "alpha"
  rw [h, if_pos (by decide)]

/-- Claim C6 (amended): LLM initialization (and hence module-level startup)
fails with the fatal configuration error exactly when `GROQ_API_KEY` is
absent from the environment *or present with the empty-string value* (Python
`if not api_key` treats both as falsy); a present non-empty credential never
raises this error. -/
theorem claim_C6 : ∀ (emb groq fs : Option String),
    ((_initialize_llm groq).isOk = false ↔ (groq = none ∨ groq = some "")) ∧
    (startup emb groq fs).isOk = (_initialize_llm groq).isOk := by
  intro emb groq fs
  constructor
  · cases groq with
    | none => simp [_initialize_llm, Except.isOk, Except.toBool]
    | some k =>
      by_cases hk : k = ""
      · subst hk
        simp [_initialize_llm, Except.isOk, Except.toBool]
      · simp [_initialize_llm, hk, Except.isOk, Except.toBool]
  · cases groq with
    | none => rfl
    | some k =>
      by_cases hk : k = ""
      · subst hk
        rfl
      · simp [startup, RAGAssistant_init, _initialize_llm, hk, Except.isOk, Except.toBool]

/-- Claim C6, counterexample to the claim as stated: the credential being
*present* (as the empty string) does not prevent the startup error — the code
raises on any falsy value, not only on an absent key. -/
theorem claim_C6_counterexample :
    _initialize_llm (some "")
        = Except.error "Groq API key not found in environment variables!"
    ∧ (some "" : Option String) ≠ none := by
  exact ⟨rfl, by decide⟩

/-! ## Helper lemmas: registry invariants -/

theorem mem_dictKeys_insert (m : Dict) (name : String) (v : Chroma) (a : String) :
    a ∈ dictKeys (dictInsert m name v) ↔ a = name ∨ a ∈ dictKeys m := by
  rw [mem_dictKeys, dictLookup_insert]
  by_cases h : a = name
  · simp [h]
  · simp [h, mem_dictKeys]

theorem mem_dictKeys_erase (m : Dict) (name : String) (a : String) :
    a ∈ dictKeys (dictErase m name) ↔ a ∈ dictKeys m ∧ a ≠ name := by
  rw [mem_dictKeys, dictLookup_erase]
  by_cases h : a = name
  · simp [h]
  · simp [h, mem_dictKeys]

theorem registry_after_save (fs : Option String) (name : String)
    (hgood : goodStr name) (hwf : fileWF fs) :
    registryNames (_save_session_name fs name) = registryNames fs ++ [name] := by
  cases fs with
  | none =>
    show parseLines ("" ++ name ++ "\n") = registryNames none ++ [name]
    rw [parseLines_append_line "" name hgood (Or.inl rfl), parseLines_empty]
    rfl
  | some s =>
    show parseLines (s ++ name ++ "\n") = parseLines s ++ [name]
    exact parseLines_append_line s name hgood hwf

theorem registry_after_remove (fs : Option String) (name : String) :
    registryNames (_remove_session_name fs name)
      = (registryNames fs).filter (fun n => n != name) := by
  cases fs with
  | none => rfl
  | some s =>
    simp only [_remove_session_name, registryNames]
    exact parseLines_writeLines _
      (fun n hn => goodStr_of_mem_parseLines s n (List.mem_of_mem_filter hn))

/-- Claim C7 (spec-modelled splitter): the chunking configuration of
`vectordb.__init__` is chunk size 500, overlap 100, separator priority
paragraph, line, sentence, word; for the splitter as modelled from the spec,
any text of at most 500 characters is exactly one chunk and every produced
chunk has at most 500 characters. -/
theorem claim_C7 :
    studymateSplitter.chunk_size = 500 ∧
    studymateSplitter.chunk_overlap = 100 ∧
    studymateSplitter.separators = ["\n\n", "\n", ".", " "] ∧
    (∀ text : String, text.length ≤ 500 →
      chunk_text studymateSplitter text = [text]) ∧
    (∀ text : String, ∀ c ∈ chunk_text studymateSplitter text, c.length ≤ 500) := by
  refine ⟨rfl, rfl, rfl, ?_, ?_⟩
  · intro text h
    exact splitWith_single 500 400 "\n\n" ["\n", ".", " "] text h
  · intro text c hc
    exact splitWith_le 500 400 (by decide) ["\n\n", "\n", ".", " "] text c hc

/-- Claim C7, witness: a short text is kept whole as one chunk. -/
theorem claim_C7_witness :
    ("mitochondria".length ≤ 500) ∧
      chunk_text studymateSplitter "mitochondria" = ["mitochondria"] :=
  ⟨by decide, claim_C7.2.2.2.1 "mitochondria" (by decide)⟩

/-- Claim C8 (amended): the chat loop stops exactly when the *lowercased*
input equals the exit keyword `"quit"` (a case-insensitive, whitespace-
sensitive match — `"QUIT"` also exits), and submits every input whose
lowercase form differs from the keyword. -/
theorem claim_C8 : ∀ (q : String) (qs : List String),
    (lowerStr q = "quit" → start_chat_loop (q :: qs) = []) ∧
    (lowerStr q ≠ "quit" → start_chat_loop (q :: qs) = q :: start_chat_loop qs) := by
  intro q qs
  constructor
  · intro h
    simp [start_chat_loop, h]
  · intro h
    simp [start_chat_loop, h]

/-- Claim C8, counterexample to the claim as stated: `"QUIT"` is not an exact
match of the exit keyword `"quit"`, yet the loop exits instead of submitting
it as a question. -/
theorem claim_C8_counterexample :
    start_chat_loop ["QUIT", "what is mitosis"] = [] ∧ "QUIT" ≠ "quit" := by
  constructor
  · decide
  · decide

/-- Claim C8, witness: a capitalised exit word also stops the loop. -/
theorem claim_C8_witness : start_chat_loop ["Quit", "hello"] = [] :=
  (claim_C8 "Quit" ["hello"]).1 (by decide)

/-- Claim C9 (amended): assume the set of stripped non-blank registry lines
equals the key set of the in-memory dict.  After a successful
`delete_session` the sets are equal again and every line equal to the deleted
name (duplicates included) is removed.  After a successful `create_session`
the sets are equal again and, on actual creation, the appended line adds
exactly the new name — *provided* the name survives the write/strip round
trip (non-blank, strip-invariant, newline-free) and the file is in the shape
the code itself maintains (absent, empty, or newline-terminated); the
counterexample shows the invariant breaks for e.g. a whitespace name. -/
theorem claim_C9 : ∀ (db : VectorDB) (m : Dict) (name : String),
    db.collections = some m →
    sameNames (registryNames db.sessionsFile) (dictKeys m) →
    ((goodStr name → fileWF db.sessionsFile →
      ∀ (b : Bool) (db' : VectorDB) (m' : Dict),
        create_session db name = some (b, db') → db'.collections = some m' →
        sameNames (registryNames db'.sessionsFile) (dictKeys m') ∧
        (b = true →
          registryNames db'.sessionsFile = registryNames db.sessionsFile ++ [name])) ∧
     (∀ (c : Chroma) (db' : VectorDB) (m' : Dict),
        delete_session db name = some (c, db') → db'.collections = some m' →
        sameNames (registryNames db'.sessionsFile) (dictKeys m') ∧
        registryNames db'.sessionsFile
          = (registryNames db.sessionsFile).filter (fun n => n != name))) := by
  intro db m name hcol hsame
  constructor
  · intro hgood hwf b db' m' hcreate hcol'
    cases hcont : dictContains m name with
    | true =>
      simp only [create_session, hcol, hcont, if_true, Option.some.injEq,
        Prod.mk.injEq] at hcreate
      obtain ⟨hb, hdb⟩ := hcreate
      subst hdb
      subst hb
      have hm : m' = m := by
        rw [hcol] at hcol'
        exact (Option.some.inj hcol').symm
      subst hm
      exact ⟨hsame, fun hb' => by cases hb'⟩
    | false =>
      simp only [create_session, hcol, hcont, Bool.false_eq_true, if_false,
        Option.some.injEq, Prod.mk.injEq] at hcreate
      obtain ⟨hb, hdb⟩ := hcreate
      subst hdb
      subst hb
      have hm : m' = dictInsert m name (newCollection db name) := by
        simpa using hcol'.symm
      subst hm
      have hreg := registry_after_save db.sessionsFile name hgood hwf
      constructor
      · show sameNames (registryNames (_save_session_name db.sessionsFile name))
          (dictKeys (dictInsert m name (newCollection db name)))
        intro a
        rw [hreg, List.mem_append, mem_dictKeys_insert]
        simp only [List.mem_singleton]
        rw [hsame a]
        exact Or.comm
      · intro _
        exact hreg
  · intro c db' m' hdel hcol'
    cases hm0 : dictLookup m name with
    | none => simp [delete_session, hcol, hm0] at hdel
    | some c0 =>
      simp only [delete_session, hcol, hm0, Option.some.injEq, Prod.mk.injEq] at hdel
      obtain ⟨hc, hdb⟩ := hdel
      subst hdb
      have hm : m' = dictErase m name := by
        simpa using hcol'.symm
      subst hm
      have hreg := registry_after_remove db.sessionsFile name
      constructor
      · show sameNames (registryNames (_remove_session_name db.sessionsFile name))
          (dictKeys (dictErase m name))
        intro a
        rw [hreg, List.mem_filter, mem_dictKeys_erase]
        rw [hsame a]
        simp [bne_iff_ne]
      · exact hreg

/-- Claim C9, counterexample to the claim as stated: starting from a state
where the registry-file line set and the key set agree (both empty),
creating the session named `" "` (a single space) succeeds, but the appended
line strips to blank and is skipped on parsing, so the two sets disagree
afterwards. -/
theorem claim_C9_counterexample :
    sameNames (registryNames (vectordb_init none none).sessionsFile) (dictKeys []) ∧
    create_session (vectordb_init none none) " " = some (true,
      { vectordb_init none none with
          collections := some [(" ", newCollection (vectordb_init none none) " ")]
          sessionsFile := some " \n" }) ∧
    ¬ sameNames (registryNames (some " \n"))
        (dictKeys [(" ", newCollection (vectordb_init none none) " ")]) := by
  refine ⟨fun a => Iff.rfl, by decide, ?_⟩
  intro h
  have h2 := (h " ").mpr (by decide)
  exact absurd h2 (by decide)

/-- Claim C9, witness: creating a well-formed fresh name from the empty state
keeps the registry-line set equal to the key set. -/
theorem claim_C9_witness :
    sameNames
      (registryNames (_save_session_name (vectordb_init none none).sessionsFile "bio"))
      (dictKeys (dictInsert [] "bio" (newCollection (vectordb_init none none) "bio"))) :=
  (((claim_C9 (vectordb_init none none) [] "bio" rfl (fun a => Iff.rfl)).1
    ⟨by decide, by decide, by decide⟩ trivial true
    { vectordb_init none none with
        collections := some (dictInsert [] "bio"
          (newCollection (vectordb_init none none) "bio"))
        sessionsFile := _save_session_name (vectordb_init none none).sessionsFile "bio" }
    (dictInsert [] "bio" (newCollection (vectordb_init none none) "bio"))
    rfl rfl).1)

/-- If the collections attribute holds a dict, `list_session` prints the
session-list header first. -/
theorem list_session_head (db : VectorDB) (h : db.collections ≠ none) :
    (list_session db).head? = some "List of all Session Names" := by
  cases hc : db.collections with
  | none => exact absurd hc h
  | some m => simp [list_session, hc]

/-- Claim C10: on every reachable `vectordb` state the collections attribute
holds a dict (it is initialized to one and no operation ever assigns `None`),
so the `None` check of `list_session` is always false and the printout always
starts with the session-list header — the empty-registry message is
unreachable. -/
theorem claim_C10 : ∀ db : VectorDB, Reachable db →
    db.collections ≠ none ∧
    (list_session db).head? = some "List of all Session Names" := by
  intro db h
  have hcol : db.collections ≠ none := by
    induction h with
    | init env fs => simp [vectordb_init]
    | create db0 name b db' h0 heq ih =>
      cases hm : db0.collections with
      | none => simp [create_session, hm] at heq
      | some m =>
        cases hcont : dictContains m name with
        | true =>
          simp only [create_session, hm, hcont, if_true, Option.some.injEq,
            Prod.mk.injEq] at heq
          obtain ⟨hb, hdb⟩ := heq
          subst hdb
          rw [hm]
          simp
        | false =>
          simp only [create_session, hm, hcont, Bool.false_eq_true, if_false,
            Option.some.injEq, Prod.mk.injEq] at heq
          obtain ⟨hb, hdb⟩ := heq
          subst hdb
          simp
    | delete db0 name c db' h0 heq ih =>
      cases hm : db0.collections with
      | none => simp [delete_session, hm] at heq
      | some m =>
        cases hl : dictLookup m name with
        | none => simp [delete_session, hm, hl] at heq
        | some c0 =>
          simp only [delete_session, hm, hl, Option.some.injEq,
            Prod.mk.injEq] at heq
          obtain ⟨hc, hdb⟩ := heq
          subst hdb
          simp
  exact ⟨hcol, list_session_head db hcol⟩

/-- Claim C10, witness: the freshly initialized database (no registry file)
has a dict in `collections`, and listing prints the header. -/
theorem claim_C10_witness :
    (vectordb_init none none).collections ≠ none ∧
    (list_session (vectordb_init none none)).head?
      = some "List of all Session Names" :=
  claim_C10 (vectordb_init none none) (Reachable.init none none)
